import Mathlib

/-!
Verification of the `harb` horse-rating model (`src/harb/analytics.py`).

The Python module maintains a rating store: a `defaultdict` mapping a runner
identity to a record holding a one-element tuple of TrueSkill ratings, a race
counter and a win counter.  `fit_race` / `fit` drive the TrueSkill `rate`
call over races and write the results back; `pwin_mc` and `pwin_trapz`
estimate win probabilities; `to_dict` / `from_dict` serialize the model.

The shallow embedding below translates that code.  The store is an
association list (insertion-ordered, unique keys — the observable behaviour
of a Python dict); the external TrueSkill `rate` function is a parameter of
the fitting functions, returning `none` where the library would raise.
Ratings are parametric in the numeric type: the executable claims use `ℚ`,
the analytic ones use `ℝ`.
-/

namespace Harb

/-- Competitor identity: an opaque key (modelled as a natural number). -/
abbrev Ident : Type := Nat

/-- A belief distribution: the `mu` / `sigma` fields of a TrueSkill `Rating`. -/
structure Rating (α : Type) where
  mu : α
  sigma : α
deriving DecidableEq, Repr

/-- The model hyperparameters held by the `TrueSkill` environment object
(`self._ts`): initial mean and standard deviation, beta, tau and the draw
probability. -/
structure Params (α : Type) where
  mu : α
  sigma : α
  beta : α
  tau : α
  draw_probability : α
deriving DecidableEq, Repr

/-- One entry of the `_ratings` defaultdict: a group of ratings (the source
keeps a 1-tuple per runner), the number of races run and the number won. -/
structure Record (α : Type) where
  rating : List (Rating α)
  n_races : Nat
  n_wins : Nat
deriving DecidableEq, Repr

/-- The `_ratings` mapping: identity to record, as an insertion-ordered
association list with (invariantly) unique keys. -/
abbrev Store (α : Type) : Type := List (Ident × Record α)

/-- Model of `self._ts.create_rating()`: a rating seeded with the prior mean and
standard deviation. -/
def createRating {α : Type} (p : Params α) : Rating α :=
  ⟨p.mu, p.sigma⟩

/-- The default-factory value of the `_ratings` defaultdict: a 1-element
rating group at the prior, with zero counters. -/
def defaultRecord {α : Type} (p : Params α) : Record α :=
  ⟨[createRating p], 0, 0⟩

/-- Raw lookup in the association list (first binding wins, as in a dict). -/
def findRecord {α : Type} (st : Store α) (x : Ident) : Option (Record α) :=
  (st.find? (fun e => e.1 == x)).map Prod.snd

/-- Reading `self._ratings[x]`: the stored record, or the default-factory
record when the key is absent. -/
def getRecord {α : Type} (p : Params α) (st : Store α) (x : Ident) : Record α :=
  (findRecord st x).getD (defaultRecord p)

/-- The key list of the store (`_ratings.keys()`; `len(_ratings)` is its
length). -/
def keys {α : Type} (st : Store α) : List Ident :=
  st.map Prod.fst

/-- Dict assignment `_ratings[x] = v`: replace the binding when the key is
present, append a new binding otherwise. -/
def setRecord {α : Type} (st : Store α) (x : Ident) (v : Record α) : Store α :=
  if x ∈ keys st then st.map (fun e => if e.1 == x then (x, v) else e)
  else st ++ [(x, v)]

/-- The defaultdict side effect of merely reading `self._ratings[x]`: a
missing key is materialized with the default-factory record. -/
def touch {α : Type} (p : Params α) (st : Store α) (x : Ident) : Store α :=
  if x ∈ keys st then st else st ++ [(x, defaultRecord p)]

/-- Reading `self._ratings[r]` for every runner in order. -/
def touchAll {α : Type} (p : Params α) (st : Store α) (xs : List Ident) : Store α :=
  xs.foldl (touch p) st

section StoreLemmas

variable {α : Type}

theorem mem_keys_iff {st : Store α} {x : Ident} :
    x ∈ keys st ↔ ∃ e ∈ st, e.1 = x := by
  simp [keys]

theorem find?_key_eq_none {st : Store α} {x : Ident} (h : x ∉ keys st) :
    st.find? (fun e => e.1 == x) = none := by
  apply List.find?_eq_none.mpr
  intro e he
  simp only [beq_iff_eq]
  intro hex
  exact h (mem_keys_iff.mpr ⟨e, he, hex⟩)

theorem getRecord_touch (p : Params α) (st : Store α) (x y : Ident) :
    getRecord p (touch p st x) y = getRecord p st y := by
  unfold touch
  split
  · rfl
  · next hmem =>
      unfold getRecord findRecord
      rw [List.find?_append]
      by_cases hxy : x = y
      · subst hxy
        rw [find?_key_eq_none hmem]
        simp
      · have h1 : List.find? (fun e => e.1 == y) [(x, defaultRecord p)] = none := by
          simp [List.find?_cons, hxy]
        rw [h1, Option.or_none]

theorem getRecord_touchAll (p : Params α) (xs : List Ident) (st : Store α) (y : Ident) :
    getRecord p (touchAll p st xs) y = getRecord p st y := by
  induction xs generalizing st with
  | nil => rfl
  | cons a t ih =>
      show getRecord p (touchAll p (touch p st a) t) y = getRecord p st y
      rw [ih, getRecord_touch]

theorem find?_replace_self (x : Ident) (v : Record α) (st : Store α) :
    List.find? (fun e => e.1 == x) (st.map (fun e => if e.1 == x then (x, v) else e)) =
      if x ∈ keys st then some (x, v) else none := by
  induction st with
  | nil => simp [keys]
  | cons e t ih =>
      by_cases he : e.1 = x
      · have hb : (e.1 == x) = true := by simpa using he
        simp only [List.map_cons, hb, if_true, List.find?_cons]
        have hmem : x ∈ keys (e :: t) := mem_keys_iff.mpr ⟨e, by simp, he⟩
        simp [hmem]
      · have hb : (e.1 == x) = false := by simpa using he
        simp only [List.map_cons, hb, Bool.false_eq_true, if_false, List.find?_cons, ih]
        have hmem : x ∈ keys (e :: t) ↔ x ∈ keys t := by
          constructor
          · intro h
            rcases mem_keys_iff.mp h with ⟨a, ha, hax⟩
            rcases List.mem_cons.mp ha with h1 | h1
            · exact absurd (h1 ▸ hax) he
            · exact mem_keys_iff.mpr ⟨a, h1, hax⟩
          · intro h
            rcases mem_keys_iff.mp h with ⟨a, ha, hax⟩
            exact mem_keys_iff.mpr ⟨a, List.mem_cons_of_mem _ ha, hax⟩
        rw [if_congr hmem rfl rfl]

theorem find?_replace_ne (x y : Ident) (v : Record α) (hxy : x ≠ y) (st : Store α) :
    List.find? (fun e => e.1 == y) (st.map (fun e => if e.1 == x then (x, v) else e)) =
      List.find? (fun e => e.1 == y) st := by
  induction st with
  | nil => rfl
  | cons e t ih =>
      by_cases hex : e.1 = x
      · have hb : (e.1 == x) = true := by simpa using hex
        have hey : (e.1 == y) = false := by
          simp only [beq_eq_false_iff_ne, ne_eq]
          intro h
          exact hxy (hex ▸ h)
        have hxyb : ((x, v).1 == y) = false := by simpa using hxy
        simp only [List.map_cons, hb, if_true, List.find?_cons, hxyb, hey, ih]
      · have hb : (e.1 == x) = false := by simpa using hex
        simp only [List.map_cons, hb, Bool.false_eq_true, if_false, List.find?_cons, ih]

theorem getRecord_setRecord_self (p : Params α) (st : Store α) (x : Ident) (v : Record α) :
    getRecord p (setRecord st x v) x = v := by
  unfold setRecord
  split
  · next hmem =>
      unfold getRecord findRecord
      rw [find?_replace_self, if_pos hmem]
      rfl
  · next hmem =>
      unfold getRecord findRecord
      rw [List.find?_append, find?_key_eq_none hmem, Option.none_or]
      simp [List.find?_cons]

theorem getRecord_setRecord_ne (p : Params α) (st : Store α) (x y : Ident) (v : Record α)
    (hxy : x ≠ y) :
    getRecord p (setRecord st x v) y = getRecord p st y := by
  unfold setRecord
  split
  · unfold getRecord findRecord
    rw [find?_replace_ne x y v hxy]
  · unfold getRecord findRecord
    rw [List.find?_append]
    have h1 : List.find? (fun e => e.1 == y) [(x, v)] = none := by
      simp [List.find?_cons, hxy]
    rw [h1, Option.or_none]

theorem keys_setRecord_of_mem (st : Store α) (x : Ident) (v : Record α)
    (hmem : x ∈ keys st) :
    keys (setRecord st x v) = keys st := by
  unfold setRecord
  rw [if_pos hmem]
  unfold keys
  rw [List.map_map]
  apply List.map_congr_left
  intro e _
  by_cases he : e.1 = x
  · simp [he]
  · simp [he]

theorem keys_setRecord_of_not_mem (st : Store α) (x : Ident) (v : Record α)
    (hmem : x ∉ keys st) :
    keys (setRecord st x v) = keys st ++ [x] := by
  unfold setRecord
  rw [if_neg hmem]
  simp [keys]

theorem keys_touch_of_mem (p : Params α) (st : Store α) (x : Ident) (hmem : x ∈ keys st) :
    keys (touch p st x) = keys st := by
  unfold touch
  rw [if_pos hmem]

theorem keys_touch_of_not_mem (p : Params α) (st : Store α) (x : Ident) (hmem : x ∉ keys st) :
    keys (touch p st x) = keys st ++ [x] := by
  unfold touch
  rw [if_neg hmem]
  simp [keys]

end StoreLemmas

/-- A race: the participating identities, the ranking structure passed to the
rating engine, and the set of identities counted as winners. -/
structure Race where
  selection : List Ident
  ranking : List Nat
  winners : List Ident
deriving DecidableEq, Repr

/-- The external TrueSkill `rate` call (`self._ts.rate`): maps the per-runner
rating groups and the ranking to new rating groups, or `none` where the
library would raise an exception. -/
abbrev RateFn (α : Type) : Type :=
  List (List (Rating α)) → List Nat → Option (List (List (Rating α)))

/-- Projection of the comprehension reading `self._ratings[r]` for each
runner to the rating groups (the reads happen on the store after the
defaultdict has materialized every runner). -/
def ratingGroups {α : Type} (p : Params α) (st : Store α) (runners : List Ident) :
    List (List (Rating α)) :=
  runners.map (fun r => (getRecord p st r).rating)

/-- The per-runner write-back step of the fitting loop: replace the rating
group, increment `n_races`, increment `n_wins` when the runner is a winner. -/
def applyUpdate {α : Type} (p : Params α) (winners : List Ident) (st : Store α)
    (x : Ident) (nr : List (Rating α)) : Store α :=
  let h := getRecord p st x
  setRecord st x ⟨nr, h.n_races + 1, h.n_wins + (if x ∈ winners then 1 else 0)⟩

/-- The write-back loop `for i, runner in enumerate(runners)` of `fit_race`
and `fit`: the i-th runner receives the i-th new rating group. -/
def writeRace {α : Type} (p : Params α) (winners : List Ident) :
    Store α → List Ident → List (List (Rating α)) → Store α
  | st, [], _ => st
  | st, x :: xs, nrs =>
      writeRace p winners (applyUpdate p winners st x (nrs.headD [])) xs nrs.tail

/-- Model of `HorseModel.fit_race`: materialize the runners in the store, call the
rating engine, then write every result back.  The `Bool` is `false` when the
engine raised, in which case the store is left as it stood at the raise
point (only defaultdict materializations have happened). -/
def fit_race {α : Type} (p : Params α) (rate : RateFn α) (st : Store α) (race : Race) :
    Store α × Bool :=
  let runners := race.selection
  let st1 := touchAll p st runners
  match rate (ratingGroups p st1 runners) race.ranking with
  | none => (st1, false)
  | some nr => (writeRace p race.winners st1 runners nr, true)

/-- The state threaded through the `fit` loop: the store, the `n_races`
counter of the stats dict, the progress-log observations emitted so far
(each recorded as the integer interpolated into the message), and whether
the loop ran to completion without the engine raising. -/
structure GoState (α : Type) where
  store : Store α
  n_races : Nat
  plog : List Nat
  ok : Bool
deriving Repr

/-- The race loop of `HorseModel.fit`.  Races with fewer than 2 runners are
skipped.  For a processed race the store is touched, the engine is called,
results are written back, and then the progress-log condition is evaluated:
the source tests `i % 100 == 0` where `i` has been rebound by the inner
`for i, runner in enumerate(runners)` loop, so the value tested (and
logged) is `runners.length - 1`, not the race index. -/
def fitGo {α : Type} (p : Params α) (rate : RateFn α) :
    Store α → Nat → List Nat → List Race → GoState α
  | st, n, lg, [] => ⟨st, n, lg, true⟩
  | st, n, lg, race :: rest =>
      let runners := race.selection
      if runners.length < 2 then fitGo p rate st n lg rest
      else
        let st1 := touchAll p st runners
        match rate (ratingGroups p st1 runners) race.ranking with
        | none => ⟨st1, n + 1, lg, false⟩
        | some nr =>
            let st2 := writeRace p race.winners st1 runners nr
            let lg2 := if (runners.length - 1) % 100 == 0
                       then lg ++ [runners.length - 1] else lg
            fitGo p rate st2 (n + 1) lg2 rest

/-- The result of `HorseModel.fit`: the mutated store, the returned stats
(`n_races` and `n_runners = len(self._ratings)`), the progress log and the
completion flag. -/
structure FitResult (α : Type) where
  store : Store α
  n_races : Nat
  n_runners : Nat
  plog : List Nat
  ok : Bool
deriving Repr

/-- Model of `HorseModel.fit` with `log_incremental = None`. -/
def fit {α : Type} (p : Params α) (rate : RateFn α) (st : Store α) (races : List Race) :
    FitResult α :=
  let g := fitGo p rate st 0 [] races
  ⟨g.store, g.n_races, g.store.length, g.plog, g.ok⟩

section WriteRaceLemmas

variable {α : Type}

theorem headD_eq_getD_zero (l : List α) (d : α) : l.headD d = l.getD 0 d := by
  cases l <;> rfl

theorem tail_getD (l : List α) (i : Nat) (d : α) : l.tail.getD i d = l.getD (i + 1) d := by
  cases l <;> rfl

theorem getRecord_applyUpdate_self (p : Params α) (w : List Ident) (st : Store α)
    (x : Ident) (nr : List (Rating α)) :
    getRecord p (applyUpdate p w st x nr) x =
      ⟨nr, (getRecord p st x).n_races + 1,
        (getRecord p st x).n_wins + (if x ∈ w then 1 else 0)⟩ := by
  unfold applyUpdate
  exact getRecord_setRecord_self p st x _

theorem getRecord_applyUpdate_ne (p : Params α) (w : List Ident) (st : Store α)
    (x y : Ident) (nr : List (Rating α)) (hxy : x ≠ y) :
    getRecord p (applyUpdate p w st x nr) y = getRecord p st y := by
  unfold applyUpdate
  exact getRecord_setRecord_ne p st x y _ hxy

theorem getRecord_writeRace_not_mem (p : Params α) (w : List Ident)
    (runners : List Ident) (x : Ident) (hx : x ∉ runners) :
    ∀ (st : Store α) (nrs : List (List (Rating α))),
      getRecord p (writeRace p w st runners nrs) x = getRecord p st x := by
  induction runners with
  | nil => intro st nrs; rfl
  | cons a t ih =>
      intro st nrs
      have hax : a ≠ x := fun h => hx (h ▸ List.mem_cons_self a t)
      have hxt : x ∉ t := fun h => hx (List.mem_cons_of_mem _ h)
      show getRecord p (writeRace p w (applyUpdate p w st a (nrs.headD [])) t nrs.tail) x =
        getRecord p st x
      rw [ih hxt, getRecord_applyUpdate_ne p w st a x _ hax]

theorem getRecord_writeRace_get (p : Params α) (w : List Ident)
    (runners : List Ident) (hnd : runners.Nodup) :
    ∀ (st : Store α) (nrs : List (List (Rating α))) (i : Nat) (hi : i < runners.length),
      getRecord p (writeRace p w st runners nrs) runners[i] =
        ⟨nrs.getD i [],
          (getRecord p st runners[i]).n_races + 1,
          (getRecord p st runners[i]).n_wins +
            (if runners[i] ∈ w then 1 else 0)⟩ := by
  induction runners with
  | nil => intro st nrs i hi; exact absurd hi (Nat.not_lt_zero i)
  | cons a t ih =>
      intro st nrs i hi
      have hat : a ∉ t := (List.nodup_cons.mp hnd).1
      have hndt : t.Nodup := (List.nodup_cons.mp hnd).2
      cases i with
      | zero =>
          show getRecord p (writeRace p w (applyUpdate p w st a (nrs.headD [])) t nrs.tail)
              (a :: t)[0] = _
          rw [List.getElem_cons_zero,
            getRecord_writeRace_not_mem p w t a hat,
            getRecord_applyUpdate_self, headD_eq_getD_zero]
      | succ j =>
          have hj : j < t.length := Nat.lt_of_succ_lt_succ hi
          show getRecord p (writeRace p w (applyUpdate p w st a (nrs.headD [])) t nrs.tail)
              (a :: t)[j + 1] = _
          rw [List.getElem_cons_succ,
            ih hndt (applyUpdate p w st a (nrs.headD [])) nrs.tail j hj, tail_getD]
          have hay : a ≠ t[j] := by
            intro h
            exact hat (h ▸ List.getElem_mem hj)
          rw [getRecord_applyUpdate_ne p w st a _ _ hay]

end WriteRaceLemmas

/-- Default hyperparameters of the module (DEFAULT_MU, DEFAULT_SIGMA,
DEFAULT_BETA, DEFAULT_TAU, DEFAULT_DRAW). -/
def defaultParams : Params ℚ := ⟨0, 8, 4, 1/10, 1/10⟩

/-- A concrete rating engine for witnesses: returns the input groups
unchanged and never raises. -/
def rateId : RateFn ℚ := fun gs _ => some gs

/-- A concrete rating engine for witnesses: always raises. -/
def rateFail : RateFn ℚ := fun _ _ => none

/-- A concrete two-runner race: runner 0 beats runner 1, runner 0 wins. -/
def raceAB : Race := ⟨[0, 1], [0, 1], [0]⟩

/-- C1: for every race processed by `fit_race`, or by one iteration of `fit`
on a race with at least 2 participants, and for every participant at index
`i` of the selection: the participant's belief is replaced by the Update
Engine's output at index `i`, `n_races` grows by exactly 1, and `n_wins`
grows by 1 exactly when the participant is in the winners set — each
participant is updated exactly once per race. -/
theorem fit_updates_each_participant_once {α : Type} (p : Params α) (rate : RateFn α)
    (st : Store α) (race : Race) (nr : List (List (Rating α)))
    (hnd : race.selection.Nodup)
    (hr : rate (ratingGroups p (touchAll p st race.selection) race.selection) race.ranking
            = some nr) :
    (∀ (i : Nat) (hi : i < race.selection.length),
        getRecord p (fit_race p rate st race).1 race.selection[i] =
          ⟨nr.getD i [],
            (getRecord p st race.selection[i]).n_races + 1,
            (getRecord p st race.selection[i]).n_wins +
              (if race.selection[i] ∈ race.winners then 1 else 0)⟩)
    ∧ (2 ≤ race.selection.length →
        ∀ (i : Nat) (hi : i < race.selection.length),
          getRecord p (fit p rate st [race]).store race.selection[i] =
            ⟨nr.getD i [],
              (getRecord p st race.selection[i]).n_races + 1,
              (getRecord p st race.selection[i]).n_wins +
                (if race.selection[i] ∈ race.winners then 1 else 0)⟩) := by
  constructor
  · intro i hi
    simp only [fit_race, hr]
    rw [getRecord_writeRace_get p race.winners race.selection hnd _ nr i hi,
      getRecord_touchAll]
  · intro h2 i hi
    simp only [fit, fitGo, Nat.not_lt.mpr h2, if_false, hr]
    rw [getRecord_writeRace_get p race.winners race.selection hnd _ nr i hi,
      getRecord_touchAll]

/-- Witness for C1 at a concrete input: in the race `raceAB` on a fresh
store, runner 0 ends with the engine's first output group, one race run and
one win. -/
theorem fit_updates_each_participant_once_witness :
    raceAB.selection.Nodup ∧
      getRecord defaultParams (fit_race defaultParams rateId [] raceAB).1 0 =
        ⟨[createRating defaultParams], 1, 1⟩ := by
  refine ⟨by decide, ?_⟩
  have h := (fit_updates_each_participant_once defaultParams rateId [] raceAB
    (ratingGroups defaultParams (touchAll defaultParams [] raceAB.selection) raceAB.selection)
    (by decide) rfl).1 0 (by decide)
  exact h

/-- C5: processing one race is all-or-nothing: when the rating engine raises
on a race, every identity reads back from the store exactly what it read
before the attempt, both under `fit_race` and when `fit` reaches that race
as a processed race. -/
theorem fit_race_failure_preserves_records {α : Type} (p : Params α) (rate : RateFn α)
    (st : Store α) (race : Race)
    (hfail : rate (ratingGroups p (touchAll p st race.selection) race.selection) race.ranking
               = none) :
    (∀ x : Ident, getRecord p (fit_race p rate st race).1 x = getRecord p st x)
    ∧ (2 ≤ race.selection.length →
        ∀ (rest : List Race) (x : Ident),
          getRecord p (fit p rate st (race :: rest)).store x = getRecord p st x) := by
  constructor
  · intro x
    simp only [fit_race, hfail]
    exact getRecord_touchAll p race.selection st x
  · intro h2 rest x
    simp only [fit, fitGo, Nat.not_lt.mpr h2, if_false, hfail]
    exact getRecord_touchAll p race.selection st x

/-- Witness for C5 at a concrete input: a failing engine on `raceAB` leaves
runner 0 at its default record. -/
theorem fit_race_failure_preserves_records_witness :
    (rateFail (ratingGroups defaultParams (touchAll defaultParams [] raceAB.selection)
        raceAB.selection) raceAB.ranking = none) ∧
      getRecord defaultParams (fit_race defaultParams rateFail [] raceAB).1 0 =
        getRecord defaultParams [] 0 := by
  refine ⟨rfl, ?_⟩
  exact (fit_race_failure_preserves_records defaultParams rateFail [] raceAB rfl).1 0

/-- C10: for a race with at least 2 participants, `fit` on the one-element
race list and `fit_race` are the same store transformer: the final stores
are equal, and every competitor record reads back identically. -/
theorem fit_singleton_eq_fit_race {α : Type} (p : Params α) (rate : RateFn α)
    (st : Store α) (race : Race) (h2 : 2 ≤ race.selection.length) :
    (fit p rate st [race]).store = (fit_race p rate st race).1
    ∧ ∀ x : Ident,
        getRecord p (fit p rate st [race]).store x =
          getRecord p (fit_race p rate st race).1 x := by
  have hs : (fit p rate st [race]).store = (fit_race p rate st race).1 := by
    cases hr : rate (ratingGroups p (touchAll p st race.selection) race.selection)
        race.ranking with
    | none => simp [fit, fit_race, fitGo, Nat.not_lt.mpr h2, hr]
    | some nr => simp [fit, fit_race, fitGo, Nat.not_lt.mpr h2, hr]
  exact ⟨hs, fun x => by rw [hs]⟩

/-- Witness for C10 at a concrete input. -/
theorem fit_singleton_eq_fit_race_witness :
    2 ≤ raceAB.selection.length ∧
      (fit defaultParams rateId [] [raceAB]).store =
        (fit_race defaultParams rateId [] raceAB).1 :=
  ⟨by decide, (fit_singleton_eq_fit_race defaultParams rateId [] raceAB (by decide)).1⟩

/-- C7: the claim says `fit` emits a progress observation at every processed
race whose processed-race index is a multiple of 100, regardless of runner
count — so on one processed two-runner race (index 0) one observation is
expected.  The code instead tests the variable `i` after it has been rebound
by the inner `enumerate(runners)` loop, so it emits nothing here: the race
is processed (`n_races = 1`) yet the progress log is empty. -/
theorem fit_progress_log_empty_for_first_processed_race :
    (fit defaultParams rateId [] [raceAB]).n_races = 1 ∧
      (fit defaultParams rateId [] [raceAB]).plog = [] := by
  constructor <;> rfl

section FitStats

variable {α : Type}

theorem keys_touchAll_toFinset (p : Params α) (xs : List Ident) :
    ∀ st : Store α,
      (keys (touchAll p st xs)).toFinset = (keys st).toFinset ∪ xs.toFinset := by
  induction xs with
  | nil => intro st; simp [touchAll]
  | cons a t ih =>
      intro st
      show (keys (touchAll p (touch p st a) t)).toFinset = _
      rw [ih]
      by_cases ha : a ∈ keys st
      · rw [keys_touch_of_mem p st a ha]
        ext y
        simp only [Finset.mem_union, List.mem_toFinset, List.mem_cons]
        constructor
        · rintro (h | h)
          · exact Or.inl h
          · exact Or.inr (Or.inr h)
        · rintro (h | h | h)
          · exact Or.inl h
          · exact Or.inl (h ▸ ha)
          · exact Or.inr h
      · rw [keys_touch_of_not_mem p st a ha]
        ext y
        simp only [Finset.mem_union, List.mem_toFinset, List.mem_cons, List.mem_append]
        tauto

theorem keys_touchAll_nodup (p : Params α) (xs : List Ident) :
    ∀ st : Store α, (keys st).Nodup → (keys (touchAll p st xs)).Nodup := by
  induction xs with
  | nil => intro st h; exact h
  | cons a t ih =>
      intro st h
      show (keys (touchAll p (touch p st a) t)).Nodup
      apply ih
      by_cases ha : a ∈ keys st
      · rw [keys_touch_of_mem p st a ha]; exact h
      · rw [keys_touch_of_not_mem p st a ha]
        simp [List.nodup_append, h, ha]

theorem mem_keys_touchAll (p : Params α) (xs : List Ident) (st : Store α) (x : Ident)
    (hx : x ∈ xs) : x ∈ keys (touchAll p st xs) := by
  have h := keys_touchAll_toFinset p xs st
  have : x ∈ (keys (touchAll p st xs)).toFinset := by
    rw [h]
    exact Finset.mem_union_right _ (List.mem_toFinset.mpr hx)
  exact List.mem_toFinset.mp this

theorem keys_writeRace (p : Params α) (w : List Ident) :
    ∀ (runners : List Ident) (nrs : List (List (Rating α))) (st : Store α),
      (∀ x ∈ runners, x ∈ keys st) →
      keys (writeRace p w st runners nrs) = keys st := by
  intro runners
  induction runners with
  | nil => intro nrs st _; rfl
  | cons a t ih =>
      intro nrs st hmem
      have ha : a ∈ keys st := hmem a (List.mem_cons_self a t)
      have hk : keys (applyUpdate p w st a (nrs.headD [])) = keys st :=
        keys_setRecord_of_mem st a _ ha
      show keys (writeRace p w (applyUpdate p w st a (nrs.headD [])) t nrs.tail) = keys st
      rw [ih nrs.tail _ (fun x hx => hk ▸ hmem x (List.mem_cons_of_mem _ hx)), hk]

/-- The predicate deciding whether a race is processed by `fit`. -/
def processedB (r : Race) : Bool := decide (2 ≤ r.selection.length)

theorem fitGo_stats (p : Params α) (rate : RateFn α)
    (hrate : ∀ gs rk, rate gs rk ≠ none) :
    ∀ (races : List Race) (st : Store α) (n : Nat) (lg : List Nat),
      (fitGo p rate st n lg races).ok = true
      ∧ (fitGo p rate st n lg races).n_races = n + races.countP processedB
      ∧ (keys (fitGo p rate st n lg races).store).toFinset =
          (keys st).toFinset ∪ ((races.filter processedB).flatMap Race.selection).toFinset
      ∧ ((keys st).Nodup → (keys (fitGo p rate st n lg races).store).Nodup) := by
  intro races
  induction races with
  | nil =>
      intro st n lg
      refine ⟨rfl, by simp [fitGo], by simp [fitGo], fun h => h⟩
  | cons race rest ih =>
      intro st n lg
      by_cases hlen : race.selection.length < 2
      · have hp : processedB race = false := by
          simp only [processedB, decide_eq_false_iff_not]
          omega
        have hred : fitGo p rate st n lg (race :: rest) = fitGo p rate st n lg rest := by
          simp [fitGo, hlen]
        rw [hred]
        rcases ih st n lg with ⟨h1, h2, h3, h4⟩
        refine ⟨h1, ?_, ?_, h4⟩
        · rw [h2, List.countP_cons, hp]
          simp
        · rw [h3, List.filter_cons, hp]
          simp
      · obtain ⟨nr, hnr⟩ : ∃ nr,
            rate (ratingGroups p (touchAll p st race.selection) race.selection) race.ranking
              = some nr := by
          cases h : rate (ratingGroups p (touchAll p st race.selection) race.selection)
              race.ranking with
          | none => exact absurd h (hrate _ _)
          | some nr => exact ⟨nr, rfl⟩
        have hp : processedB race = true := by
          simp only [processedB, decide_eq_true_eq]
          omega
        have hsub : ∀ x ∈ race.selection, x ∈ keys (touchAll p st race.selection) :=
          fun x hx => mem_keys_touchAll p race.selection st x hx
        have hkeys2 : keys (writeRace p race.winners (touchAll p st race.selection)
            race.selection nr) = keys (touchAll p st race.selection) :=
          keys_writeRace p race.winners race.selection nr _ hsub
        have hred : fitGo p rate st n lg (race :: rest) =
            fitGo p rate
              (writeRace p race.winners (touchAll p st race.selection) race.selection nr)
              (n + 1)
              (if (race.selection.length - 1) % 100 == 0
               then lg ++ [race.selection.length - 1] else lg)
              rest := by
          simp [fitGo, hlen, hnr]
        rw [hred]
        rcases ih (writeRace p race.winners (touchAll p st race.selection) race.selection nr)
          (n + 1) (if (race.selection.length - 1) % 100 == 0
                   then lg ++ [race.selection.length - 1] else lg) with ⟨h1, h2, h3, h4⟩
        refine ⟨h1, ?_, ?_, ?_⟩
        · rw [h2, List.countP_cons, hp]
          simp
          omega
        · rw [h3, hkeys2, keys_touchAll_toFinset, List.filter_cons, hp]
          simp only [if_true, List.flatMap_cons, List.toFinset_append, Finset.union_assoc]
        · intro hnd
          apply h4
          rw [hkeys2]
          exact keys_touchAll_nodup p race.selection st hnd

end FitStats

/-- C3: on a fresh model, with a rating engine that never raises, `fit`
returns `n_races` equal to the number of races whose selection has at least
2 members, and `n_runners` equal to the number of distinct identities in the
selections of those processed races. -/
theorem fit_stats_counts {α : Type} (p : Params α) (rate : RateFn α) (races : List Race)
    (hrate : ∀ gs rk, rate gs rk ≠ none) :
    (fit p rate [] races).n_races = races.countP processedB
    ∧ (fit p rate [] races).n_runners =
        ((races.filter processedB).flatMap Race.selection).dedup.length := by
  rcases fitGo_stats p rate hrate races [] 0 [] with ⟨-, h2, h3, h4⟩
  constructor
  · show (fitGo p rate [] 0 [] races).n_races = _
    rw [h2]
    omega
  · show (fitGo p rate [] 0 [] races).store.length = _
    have hnd : (keys (fitGo p rate ([] : Store α) 0 [] races).store).Nodup := by
      apply h4
      simp [keys]
    have hlen : (fitGo p rate ([] : Store α) 0 [] races).store.length =
        (keys (fitGo p rate ([] : Store α) 0 [] races).store).length := by
      simp [keys]
    rw [hlen, ← List.toFinset_card_of_nodup hnd, h3, ← List.card_toFinset]
    simp [keys]

/-- A concrete race list for the C3 witness: a processed two-runner race, a
skipped solo race, and a second processed race sharing runner 0. -/
def witnessRaces : List Race := [raceAB, ⟨[5], [0], []⟩, ⟨[0, 2], [0, 1], []⟩]

/-- Witness for C3 at a concrete input: two of the three races are
processed, over three distinct identities. -/
theorem fit_stats_counts_witness :
    (∀ gs rk, rateId gs rk ≠ none) ∧
      (fit defaultParams rateId [] witnessRaces).n_races = 2 ∧
      (fit defaultParams rateId [] witnessRaces).n_runners = 3 := by
  have h := fit_stats_counts defaultParams rateId witnessRaces
    (fun gs rk => by simp [rateId])
  refine ⟨fun gs rk => by simp [rateId], ?_, ?_⟩
  · rw [h.1]; rfl
  · rw [h.2]; rfl

/-- One element of the serialized ratings list: runner identity, the belief
mean and standard deviation, and the two counters. -/
structure RatingEntry (α : Type) where
  runner : Ident
  mu : α
  sigma : α
  n_races : Nat
  n_wins : Nat
deriving DecidableEq, Repr

/-- The serialized model dictionary: the hyperparameter block and the
ratings list. -/
structure HMDict (α : Type) where
  ts : Params α
  ratings : List (RatingEntry α)
deriving DecidableEq, Repr

/-- The in-memory model: hyperparameters and the rating store. -/
structure HorseModel (α : Type) where
  ts : Params α
  ratings : Store α
deriving DecidableEq, Repr

/-- Serialization of one store entry, as in the ratings map of
`HorseModel.to_dict`: the head of the 1-tuple rating group supplies mu and
sigma (the head default is immaterial on well-formed stores, whose groups
are 1-tuples; the source would raise on an empty tuple). -/
def entryOf {α : Type} (p : Params α) (e : Ident × Record α) : RatingEntry α :=
  let r := e.2.rating.headD (createRating p)
  ⟨e.1, r.mu, r.sigma, e.2.n_races, e.2.n_wins⟩

/-- Model of `HorseModel.to_dict`. -/
def to_dict {α : Type} (m : HorseModel α) : HMDict α :=
  ⟨m.ts, m.ratings.map (entryOf m.ts)⟩

/-- The store record rebuilt by `from_dict` for one serialized entry: a
fresh 1-tuple rating from the stored mu and sigma, plus the counters. -/
def recOf {α : Type} (r : RatingEntry α) : Record α :=
  ⟨[⟨r.mu, r.sigma⟩], r.n_races, r.n_wins⟩

/-- Model of `HorseModel.from_dict`: a fresh model carrying the stored
hyperparameters, then one dict assignment per serialized entry. -/
def from_dict {α : Type} (d : HMDict α) : HorseModel α :=
  ⟨d.ts, d.ratings.foldl (fun st r => setRecord st r.runner (recOf r)) []⟩

/-- Well-formedness of a model as maintained by the code: unique store keys
and 1-tuple rating groups. -/
abbrev WFModel {α : Type} (m : HorseModel α) : Prop :=
  (keys m.ratings).Nodup ∧ ∀ e ∈ m.ratings, e.2.rating.length = 1

/-- Well-formedness of a serialized dictionary: runner keys are unique. -/
abbrev WFDict {α : Type} (d : HMDict α) : Prop :=
  (d.ratings.map RatingEntry.runner).Nodup

section RoundTrip

variable {α : Type}

theorem setRecord_eq_append (st : Store α) (x : Ident) (v : Record α)
    (hmem : x ∉ keys st) : setRecord st x v = st ++ [(x, v)] := by
  unfold setRecord
  rw [if_neg hmem]

theorem foldl_setRecord_fresh :
    ∀ (l : Store α) (st0 : Store α), (keys (st0 ++ l)).Nodup →
      l.foldl (fun st e => setRecord st e.1 e.2) st0 = st0 ++ l := by
  intro l
  induction l with
  | nil => intro st0 _; simp
  | cons e t ih =>
      intro st0 hnd
      have hkey : keys (st0 ++ e :: t) = keys st0 ++ (e.1 :: keys t) := by
        simp [keys]
      rw [hkey] at hnd
      rcases List.nodup_append.mp hnd with ⟨hnd0, hndet, hdisj⟩
      have hmem : e.1 ∉ keys st0 := by
        intro h
        exact hdisj h (List.mem_cons_self e.1 (keys t))
      have hassoc : st0 ++ e :: t = (st0 ++ [e]) ++ t := by simp
      show List.foldl (fun st e => setRecord st e.1 e.2) (setRecord st0 e.1 e.2) t = _
      rw [setRecord_eq_append st0 e.1 e.2 hmem, hassoc]
      apply ih
      have : keys ((st0 ++ [e]) ++ t) = keys (st0 ++ e :: t) := by rw [← hassoc]
      rw [this, hkey]
      exact List.nodup_append.mpr ⟨hnd0, hndet, hdisj⟩

/-- C2: serialization round-trips.  On a well-formed model,
`from_dict (to_dict m)` equals `m` in every field (hyperparameters and
every stored competitor record), and on a well-formed dictionary,
`to_dict (from_dict d)` equals `d`. -/
theorem to_dict_from_dict_roundtrip (m : HorseModel α) (d : HMDict α)
    (hm : WFModel m) (hd : WFDict d) :
    from_dict (to_dict m) = m ∧ to_dict (from_dict d) = d := by
  constructor
  · show (⟨m.ts, (m.ratings.map (entryOf m.ts)).foldl
        (fun st r => setRecord st r.runner (recOf r)) []⟩ : HorseModel α) = m
    have h1 : (m.ratings.map (entryOf m.ts)).foldl
        (fun st r => setRecord st r.runner (recOf r)) [] =
        (m.ratings.map (fun e => ((entryOf m.ts e).runner, recOf (entryOf m.ts e)))).foldl
          (fun st e => setRecord st e.1 e.2) [] := by
      rw [List.foldl_map, List.foldl_map]
    have h2 : m.ratings.map (fun e => ((entryOf m.ts e).runner, recOf (entryOf m.ts e))) =
        m.ratings := by
      have hcong : ∀ e ∈ m.ratings,
          ((entryOf m.ts e).runner, recOf (entryOf m.ts e)) = e := by
        intro e he
        obtain ⟨r, hr⟩ := List.length_eq_one.mp (hm.2 e he)
        obtain ⟨k, rec⟩ := e
        obtain ⟨rat, nr, nw⟩ := rec
        simp only at hr
        subst hr
        rfl
      calc m.ratings.map (fun e => ((entryOf m.ts e).runner, recOf (entryOf m.ts e)))
          = m.ratings.map id := List.map_congr_left hcong
        _ = m.ratings := List.map_id m.ratings
    rw [h1, h2, foldl_setRecord_fresh m.ratings [] (by simpa using hm.1)]
    simp
  · show (⟨d.ts, (d.ratings.foldl (fun st r => setRecord st r.runner (recOf r)) []).map
        (entryOf d.ts)⟩ : HMDict α) = d
    have h1 : d.ratings.foldl (fun st r => setRecord st r.runner (recOf r)) [] =
        (d.ratings.map (fun r => (r.runner, recOf r))).foldl
          (fun st e => setRecord st e.1 e.2) [] := by
      rw [List.foldl_map]
    have hkeys : keys (d.ratings.map (fun r => (r.runner, recOf r))) =
        d.ratings.map RatingEntry.runner := by
      simp [keys]
    have h2 : (d.ratings.map (fun r => (r.runner, recOf r))).foldl
        (fun st e => setRecord st e.1 e.2) [] =
        d.ratings.map (fun r => (r.runner, recOf r)) := by
      have := foldl_setRecord_fresh (d.ratings.map (fun r => (r.runner, recOf r))) []
        (by simpa [hkeys] using hd)
      simpa using this
    rw [h1, h2, List.map_map]
    have h3 : d.ratings.map (fun r => entryOf d.ts (r.runner, recOf r)) = d.ratings := by
      have hcong : ∀ r ∈ d.ratings, entryOf d.ts (r.runner, recOf r) = r := by
        intro r _
        rfl
      calc d.ratings.map (fun r => entryOf d.ts (r.runner, recOf r))
          = d.ratings.map id := List.map_congr_left hcong
        _ = d.ratings := List.map_id d.ratings
    show (⟨d.ts, d.ratings.map (entryOf d.ts ∘ fun r => (r.runner, recOf r))⟩ : HMDict α) = d
    rw [show (entryOf d.ts ∘ fun r => (r.runner, recOf r)) =
      (fun r => entryOf d.ts (r.runner, recOf r)) from rfl, h3]

/-- Witness for C2 at a concrete input: a one-competitor model and its
serialized form. -/
theorem to_dict_from_dict_roundtrip_witness :
    WFModel (⟨defaultParams, [(7, ⟨[⟨3, 2⟩], 5, 1⟩)]⟩ : HorseModel ℚ) ∧
      WFDict (⟨defaultParams, [⟨7, 3, 2, 5, 1⟩]⟩ : HMDict ℚ) ∧
      from_dict (to_dict ⟨defaultParams, [(7, ⟨[⟨3, 2⟩], 5, 1⟩)]⟩) =
        (⟨defaultParams, [(7, ⟨[⟨3, 2⟩], 5, 1⟩)]⟩ : HorseModel ℚ) ∧
      to_dict (from_dict ⟨defaultParams, [⟨7, 3, 2, 5, 1⟩]⟩) =
        (⟨defaultParams, [⟨7, 3, 2, 5, 1⟩]⟩ : HMDict ℚ) := by
  have h := to_dict_from_dict_roundtrip
    (⟨defaultParams, [(7, ⟨[⟨3, 2⟩], 5, 1⟩)]⟩ : HorseModel ℚ)
    (⟨defaultParams, [⟨7, 3, 2, 5, 1⟩]⟩ : HMDict ℚ)
    (by constructor <;> decide) (by decide)
  exact ⟨⟨by decide, by decide⟩, by decide, h.1, h.2⟩

end RoundTrip

section MonteCarlo

/-- The index order realized by `argsort(-array(R[:, i]))`: index `a`
precedes index `b` when its sample is strictly larger; equal samples are
ordered by index (numpy argsort on distinct keys agrees with every correct
sort; this fixes a deterministic tie rule for the measure-zero tie cases). -/
def argsortDescRel (s : List ℚ) (a b : Nat) : Prop :=
  s.getD b 0 < s.getD a 0 ∨ (s.getD a 0 = s.getD b 0 ∧ a ≤ b)

instance argsortDescRelDecidable (s : List ℚ) : DecidableRel (argsortDescRel s) := by
  unfold argsortDescRel
  infer_instance

instance argsortDescRelTotal (s : List ℚ) : IsTotal Nat (argsortDescRel s) := by
  constructor
  intro a b
  rcases lt_trichotomy (s.getD a 0) (s.getD b 0) with h | h | h
  · exact Or.inr (Or.inl h)
  · rcases Nat.le_total a b with hab | hba
    · exact Or.inl (Or.inr ⟨h, hab⟩)
    · exact Or.inr (Or.inr ⟨h.symm, hba⟩)
  · exact Or.inl (Or.inl h)

instance argsortDescRelTrans (s : List ℚ) : IsTrans Nat (argsortDescRel s) := by
  constructor
  intro a b c hab hbc
  rcases hab with h1 | ⟨h1, h1le⟩
  · rcases hbc with h2 | ⟨h2, h2le⟩
    · exact Or.inl (lt_trans h2 h1)
    · exact Or.inl (by rw [← h2]; exact h1)
  · rcases hbc with h2 | ⟨h2, h2le⟩
    · exact Or.inl (by rw [h1]; exact h2)
    · exact Or.inr ⟨h1.trans h2, le_trans h1le h2le⟩

theorem argsortDescRel_antisymm (s : List ℚ) {a b : Nat}
    (h1 : argsortDescRel s a b) (h2 : argsortDescRel s b a) : a = b := by
  rcases h1 with h1 | ⟨h1, h1le⟩ <;> rcases h2 with h2 | ⟨h2, h2le⟩
  · exact absurd h1 (not_lt_of_gt h2)
  · exact absurd (by rw [h2] at h1; exact h1) (lt_irrefl _)
  · exact absurd (by rw [h1] at h2; exact h2) (lt_irrefl _)
  · exact le_antisymm h1le h2le

theorem indexOf_sorted_eq_countP (r : Nat → Nat → Prop) [DecidableRel r]
    (hanti : ∀ a b, r a b → r b a → a = b) :
    ∀ (l : List Nat), l.Nodup → l.Pairwise r → ∀ x ∈ l,
      l.indexOf x = l.countP (fun y => decide (r y x ∧ y ≠ x)) := by
  intro l
  induction l with
  | nil => intro _ _ x hx; cases hx
  | cons a t ih =>
      intro hnd hpw x hx
      have hat : a ∉ t := (List.nodup_cons.mp hnd).1
      have hndt : t.Nodup := (List.nodup_cons.mp hnd).2
      have hra : ∀ y ∈ t, r a y := (List.pairwise_cons.mp hpw).1
      have hpwt : t.Pairwise r := (List.pairwise_cons.mp hpw).2
      rcases List.mem_cons.mp hx with rfl | hxt
      · rw [List.indexOf_cons_self, List.countP_cons]
        have hfa : (decide (r x x ∧ x ≠ x)) = false := by simp
        rw [hfa]
        have hz : t.countP (fun y => decide (r y x ∧ y ≠ x)) = 0 := by
          apply List.countP_eq_zero.mpr
          intro y hy
          simp only [decide_eq_true_eq, not_and]
          intro hryx hyx
          exact hyx (hanti y x hryx (hra y hy))
        rw [hz]
        simp
      · have hax : a ≠ x := fun h => hat (h ▸ hxt)
        rw [List.indexOf_cons_ne t hax, List.countP_cons]
        have hfa : (decide (r a x ∧ a ≠ x)) = true := by
          simp only [decide_eq_true_eq]
          exact ⟨hra x hxt, hax⟩
        rw [hfa, ih hndt hpwt x hxt]
        simp

/-- Model of `argsort(-array(R[:, i])).tolist()`: the competitor indices in
descending order of their samples. -/
def argsortDesc (s : List ℚ) : List Nat :=
  List.insertionSort (argsortDescRel s) (List.range s.length)

/-- Model of the rank assignment `[ar.index(x) for x in range(len(ar))]`:
entry `x` is the position of competitor `x` in the descending argsort. -/
def trialRanks (s : List ℚ) : List Nat :=
  (List.range s.length).map (fun x => (argsortDesc s).indexOf x)

theorem argsortDesc_perm (s : List ℚ) : (argsortDesc s).Perm (List.range s.length) :=
  List.perm_insertionSort _ _

theorem argsortDesc_nodup (s : List ℚ) : (argsortDesc s).Nodup :=
  ((argsortDesc_perm s).nodup_iff).mpr (List.nodup_range _)

theorem argsortDesc_length (s : List ℚ) : (argsortDesc s).length = s.length := by
  unfold argsortDesc
  rw [List.length_insertionSort, List.length_range]

theorem argsortDesc_sorted (s : List ℚ) :
    List.Pairwise (argsortDescRel s) (argsortDesc s) :=
  List.sorted_insertionSort _ _

theorem nodup_map_indexOf {l : List Nat} (hnd : l.Nodup) :
    l.map (fun x => l.indexOf x) = List.range l.length := by
  apply List.ext_getElem
  · simp
  · intro n h1 h2
    rw [List.getElem_map, List.indexOf_getElem hnd, List.getElem_range]

theorem trialRanks_perm_range (s : List ℚ) :
    (trialRanks s).Perm (List.range s.length) := by
  unfold trialRanks
  have h2 := ((argsortDesc_perm s).symm).map (fun x => (argsortDesc s).indexOf x)
  rw [nodup_map_indexOf (argsortDesc_nodup s), argsortDesc_length] at h2
  exact h2.symm.symm

theorem trialRanks_length (s : List ℚ) : (trialRanks s).length = s.length := by
  unfold trialRanks
  simp

theorem trialRanks_getD (s : List ℚ) (hnd : s.Nodup) (i : Nat) (hi : i < s.length) :
    (trialRanks s).getD i 0 =
      (List.range s.length).countP (fun j => decide (s.getD i 0 < s.getD j 0)) := by
  have hlen : i < (trialRanks s).length := by rw [trialRanks_length]; exact hi
  rw [List.getD_eq_getElem _ _ hlen]
  unfold trialRanks
  rw [List.getElem_map, List.getElem_range]
  have hmem : i ∈ argsortDesc s := ((argsortDesc_perm s).mem_iff).mpr (List.mem_range.mpr hi)
  rw [indexOf_sorted_eq_countP (argsortDescRel s) (fun a b => argsortDescRel_antisymm s)
    (argsortDesc s) (argsortDesc_nodup s) (argsortDesc_sorted s) i hmem,
    (argsortDesc_perm s).countP_eq]
  apply List.countP_congr
  intro j hj
  have hjlt : j < s.length := List.mem_range.mp hj
  simp only [decide_eq_true_eq]
  constructor
  · rintro ⟨hr, hji⟩
    rcases hr with h | ⟨heq, -⟩
    · exact h
    · exfalso
      apply hji
      rw [List.getD_eq_getElem s 0 hjlt, List.getD_eq_getElem s 0 hi] at heq
      exact (List.Nodup.getElem_inj_iff hnd).mp heq
  · intro hlt
    refine ⟨Or.inl hlt, ?_⟩
    intro hji
    rw [hji] at hlt
    exact lt_irrefl _ hlt

/-- C4: within one simulated trial of `pwin_mc`, with pairwise-distinct
samples the rank assigned to competitor `i` is the number of competitors
whose sample strictly exceeds competitor i's; a competitor holding the
unique highest sample is assigned rank 0; and the assigned ranks always form
a permutation of `0 .. N-1`. -/
theorem trialRanks_spec (s : List ℚ) :
    (trialRanks s).Perm (List.range s.length)
    ∧ (s.Nodup → ∀ (i : Nat), i < s.length →
        (trialRanks s).getD i 0 =
          (List.range s.length).countP (fun j => decide (s.getD i 0 < s.getD j 0)))
    ∧ (s.Nodup → ∀ (i : Nat), i < s.length →
        (∀ j, j < s.length → j ≠ i → s.getD j 0 < s.getD i 0) →
        (trialRanks s).getD i 0 = 0) := by
  refine ⟨trialRanks_perm_range s, fun hnd i hi => trialRanks_getD s hnd i hi, ?_⟩
  intro hnd i hi hmax
  rw [trialRanks_getD s hnd i hi]
  apply List.countP_eq_zero.mpr
  intro j hj
  simp only [decide_eq_true_eq, not_lt]
  by_cases hji : j = i
  · rw [hji]
  · exact le_of_lt (hmax j (List.mem_range.mp hj) hji)

/-- Witness for C4 at a concrete input: in the trial with samples
`[1, 3, 2]`, competitor 1 holds the unique highest sample and gets rank 0. -/
theorem trialRanks_spec_witness :
    ([1, 3, 2] : List ℚ).Nodup ∧ (trialRanks [1, 3, 2]).getD 1 0 = 0 := by
  refine ⟨by decide, ?_⟩
  apply (trialRanks_spec [1, 3, 2]).2.2 (by decide) 1 (by decide)
  intro j hj hne
  have hj3 : j < 3 := by simpa using hj
  interval_cases j
  · decide
  · exact absurd rfl hne
  · decide

end MonteCarlo

/-- Model of `HorseModel.get_ratings`: the head of each runner's 1-tuple
rating group, read from the store (absent runners read the prior). -/
def get_ratings {α : Type} (p : Params α) (st : Store α) (runners : List Ident) :
    List (Rating α) :=
  runners.map (fun x => (getRecord p st x).rating.headD (createRating p))

/-- The fixed Monte Carlo trial count `N = 1000` of `pwin_mc`. -/
def mcTrials : Nat := 1000

/-- The simulated performance column of one trial: one sample per
competitor, `randn() * r.sigma + r.mu`, with the standard-normal draws
supplied by the parameter `z` (competitor index, trial index). -/
def trialSamples (ratings : List (Rating ℚ)) (z : Nat → Nat → ℚ) (t : Nat) : List ℚ :=
  ratings.mapIdx (fun i r => z i t * r.sigma + r.mu)

/-- Model of `HorseModel.pwin_mc`: for each competitor, the fraction of the
1000 trials in which its within-trial rank is below `nwins`. -/
def pwin_mc (p : Params ℚ) (st : Store ℚ) (runners : List Ident) (z : Nat → Nat → ℚ)
    (nwins : Nat) : List ℚ :=
  (List.range (get_ratings p st runners).length).map (fun i =>
    ((List.range mcTrials).countP
        (fun t => decide
          ((trialRanks (trialSamples (get_ratings p st runners) z t)).getD i 0 < nwins)) : ℚ)
      / (mcTrials : ℚ))

section McSums

theorem sum_map_range (f : Nat → ℚ) (n : Nat) :
    ((List.range n).map f).sum = ∑ i ∈ Finset.range n, f i := by
  induction n with
  | zero => simp
  | succ m ih =>
      rw [List.range_succ, List.map_append, List.sum_append, Finset.sum_range_succ, ih]
      simp

theorem countP_range_cast (pb : Nat → Bool) (n : Nat) :
    ((List.range n).countP pb : ℚ) = ∑ t ∈ Finset.range n, (if pb t then (1 : ℚ) else 0) := by
  induction n with
  | zero => simp
  | succ m ih =>
      rw [List.range_succ, List.countP_append, Finset.sum_range_succ, ← ih]
      have h1 : List.countP pb [m] = if pb m then 1 else 0 := by
        rw [show ([m] : List Nat) = m :: [] from rfl, List.countP_cons]
        simp
      rw [h1]
      push_cast
      split <;> simp

theorem range_map_getD {β : Type} (l : List β) (d : β) :
    (List.range l.length).map (fun i => l.getD i d) = l := by
  apply List.ext_getElem
  · simp
  · intro n h1 h2
    rw [List.getElem_map, List.getElem_range, List.getD_eq_getElem l d h2]

theorem countP_range_getD {β : Type} (pb : β → Bool) (l : List β) (d : β) :
    (List.range l.length).countP (fun i => pb (l.getD i d)) = l.countP pb := by
  conv_rhs => rw [← range_map_getD l d]
  rw [List.countP_map]
  rfl

theorem countP_lt_one_range (n : Nat) (hn : 1 ≤ n) :
    (List.range n).countP (fun v => decide (v < 1)) = 1 := by
  have h1 : (List.range n).countP (fun v => decide (v < 1)) =
      (List.range n).countP (fun v => v == 0) := by
    apply List.countP_congr
    intro x _
    simp [Nat.lt_one_iff]
  rw [h1, ← List.count_eq_countP]
  exact List.count_eq_one_of_mem (List.nodup_range n) (List.mem_range.mpr hn)

theorem trial_rank_count_one (s : List ℚ) (hs : 1 ≤ s.length) :
    (List.range s.length).countP (fun i => decide ((trialRanks s).getD i 0 < 1)) = 1 := by
  rw [show s.length = (trialRanks s).length from (trialRanks_length s).symm,
    countP_range_getD (fun v => decide (v < 1)) (trialRanks s) 0,
    (trialRanks_perm_range s).countP_eq]
  exact countP_lt_one_range s.length hs

end McSums

/-- C8 (amended): every entry of `pwin_mc` lies in the interval 0 to 1, and
for `nwins = 1` on a nonempty runner list the entries sum to exactly 1 in
exact arithmetic (each trial assigns rank 0 to exactly one competitor).  On
the empty runner list the returned vector is empty and its sum is 0, not 1. -/
theorem pwin_mc_bounds_and_sum (p : Params ℚ) (st : Store ℚ) (runners : List Ident)
    (z : Nat → Nat → ℚ) (nwins : Nat) (hn : 1 ≤ nwins) :
    (∀ q ∈ pwin_mc p st runners z nwins, 0 ≤ q ∧ q ≤ 1)
    ∧ (nwins = 1 → runners ≠ [] → (pwin_mc p st runners z nwins).sum = 1) := by
  constructor
  · intro q hq
    unfold pwin_mc at hq
    rcases List.mem_map.mp hq with ⟨i, hi, rfl⟩
    constructor
    · apply div_nonneg (Nat.cast_nonneg _)
      norm_num [mcTrials]
    · rw [div_le_one (by norm_num [mcTrials])]
      have hle : (List.range mcTrials).countP
          (fun t => decide
            ((trialRanks (trialSamples (get_ratings p st runners) z t)).getD i 0 < nwins))
          ≤ mcTrials := by
        have h := @List.countP_le_length Nat
          (fun t => decide
            ((trialRanks (trialSamples (get_ratings p st runners) z t)).getD i 0 < nwins))
          (List.range mcTrials)
        simpa using h
      exact_mod_cast hle
  · intro h1 hne
    subst h1
    unfold pwin_mc
    have hN1 : 1 ≤ (get_ratings p st runners).length := by
      unfold get_ratings
      rw [List.length_map]
      exact List.length_pos.mpr hne
    rw [sum_map_range, ← Finset.sum_div]
    have hcast : ∀ i ∈ Finset.range (get_ratings p st runners).length,
        ((List.range mcTrials).countP
            (fun t => decide
              ((trialRanks (trialSamples (get_ratings p st runners) z t)).getD i 0 < 1)) : ℚ)
          = ∑ t ∈ Finset.range mcTrials,
              (if decide
                  ((trialRanks (trialSamples (get_ratings p st runners) z t)).getD i 0 < 1)
               then (1 : ℚ) else 0) :=
      fun i _ => countP_range_cast _ mcTrials
    rw [Finset.sum_congr rfl hcast, Finset.sum_comm]
    have hinner : ∀ t ∈ Finset.range mcTrials,
        (∑ i ∈ Finset.range (get_ratings p st runners).length,
            (if decide
                ((trialRanks (trialSamples (get_ratings p st runners) z t)).getD i 0 < 1)
             then (1 : ℚ) else 0)) = 1 := by
      intro t _
      have hslen : (trialSamples (get_ratings p st runners) z t).length =
          (get_ratings p st runners).length := by
        unfold trialSamples
        rw [List.length_mapIdx]
      rw [show (get_ratings p st runners).length =
            (trialSamples (get_ratings p st runners) z t).length from hslen.symm,
        ← countP_range_cast]
      have hcount := trial_rank_count_one (trialSamples (get_ratings p st runners) z t)
        (by rw [hslen]; exact hN1)
      exact_mod_cast hcount
    rw [Finset.sum_congr rfl hinner]
    simp [mcTrials]

/-- Witness for C8 at a concrete input: one runner, `nwins = 1`. -/
theorem pwin_mc_bounds_and_sum_witness :
    1 ≤ 1 ∧
      ((∀ q ∈ pwin_mc defaultParams [] [0] (fun _ _ => 0) 1, 0 ≤ q ∧ q ≤ 1)
        ∧ (1 = 1 → ([0] : List Ident) ≠ [] →
            (pwin_mc defaultParams [] [0] (fun _ _ => 0) 1).sum = 1)) :=
  ⟨by decide, pwin_mc_bounds_and_sum defaultParams [] [0] (fun _ _ => 0) 1 (by decide)⟩

/-- Counterexample to C8 as stated: on the empty runner list, `pwin_mc`
returns the empty vector, whose sum is 0, not 1, even with `nwins = 1`. -/
theorem pwin_mc_empty_runners_sum_ne_one :
    (pwin_mc defaultParams [] [] (fun _ _ => 0) 1).sum ≠ 1 := by
  have h : pwin_mc defaultParams [] [] (fun _ _ => 0) 1 = [] := rfl
  rw [h]
  norm_num

section Gaussian

/-- The standard normal probability density. -/
noncomputable def gaussPdf (x : ℝ) : ℝ :=
  Real.exp (-(1 / 2) * x ^ 2) / Real.sqrt (2 * Real.pi)

/-- The standard normal cumulative distribution function. -/
noncomputable def gaussCdf (x : ℝ) : ℝ :=
  ∫ t in Set.Iic x, gaussPdf t

theorem gaussPdf_pos (x : ℝ) : 0 < gaussPdf x := by
  unfold gaussPdf
  apply div_pos (Real.exp_pos _)
  apply Real.sqrt_pos.mpr
  positivity

theorem gaussPdf_integrable : MeasureTheory.Integrable gaussPdf := by
  unfold gaussPdf
  have h := integrable_exp_neg_mul_sq (by norm_num : (0 : ℝ) < 1 / 2)
  exact h.div_const _

theorem gaussCdf_pos (x : ℝ) : 0 < gaussCdf x := by
  unfold gaussCdf
  have hf : 0 ≤ᵐ[MeasureTheory.volume.restrict (Set.Iic x)] gaussPdf :=
    MeasureTheory.ae_of_all _ (fun t => (gaussPdf_pos t).le)
  have hfi : MeasureTheory.IntegrableOn gaussPdf (Set.Iic x) :=
    gaussPdf_integrable.integrableOn
  rw [MeasureTheory.setIntegral_pos_iff_support_of_nonneg_ae hf hfi]
  have hsupp : Function.support gaussPdf = Set.univ := by
    ext t
    simp [Function.mem_support, (gaussPdf_pos t).ne']
  rw [hsupp, Set.univ_inter, Real.volume_Iic]
  simp

end Gaussian

section Quadrature

/-- Modelled from the spec: scipy's `norm.pdf`, called by `pwin_trapz`, is
not in `src/`.  For a positive scale it is the scaled standard normal
density; for standard deviation 0 the spec notes the density is a Dirac
spike, not a function — the library evaluation is invalid (NaN), modelled
as `none`. -/
noncomputable def normPdfE (loc scale x : ℝ) : Option ℝ :=
  if 0 < scale then some (gaussPdf ((x - loc) / scale) / scale) else none

/-- Modelled from the spec: scipy's `norm.cdf`, `none` on an invalid
(non-positive) scale, as for `normPdfE`. -/
noncomputable def normCdfE (loc scale x : ℝ) : Option ℝ :=
  if 0 < scale then some (gaussCdf ((x - loc) / scale)) else none

/-- NaN-propagating multiplication on float values. -/
noncomputable def omul (a b : Option ℝ) : Option ℝ := a.bind (fun x => b.map (fun y => x * y))

/-- NaN-propagating addition on float values. -/
noncomputable def oadd (a b : Option ℝ) : Option ℝ := a.bind (fun x => b.map (fun y => x + y))

/-- NaN-propagating sum of a float list. -/
noncomputable def osum (l : List (Option ℝ)) : Option ℝ := l.foldl oadd (some 0)

/-- Model of `np.linspace(start, stop, n)` (endpoint included). -/
noncomputable def linspace (a b : ℝ) (n : Nat) : List ℝ :=
  (List.range n).map (fun i : Nat => a + (b - a) * (i : ℝ) / ((n : ℝ) - 1))

/-- Model of `np.trapz(p, dx=dx)` over possibly-NaN values: half the sum of
consecutive-pair sums, times the grid step. -/
noncomputable def trapzO (dx : ℝ) (pl : List (Option ℝ)) : Option ℝ :=
  (osum (List.zipWith oadd pl pl.tail)).map (fun s => s * dx / 2)

/-- Model of Python `min` over the mean array (the empty case would raise
in the source and never occurs in the claims). -/
noncomputable def listMin (l : List ℝ) : ℝ := l.foldl min (l.headD 0)

/-- Model of Python `max` over an array. -/
noncomputable def listMax (l : List ℝ) : ℝ := l.foldl max (l.headD 0)

/-- Model of `HorseModel.pwin_trapz`: integrate, for each competitor, its
density times the product of the others' cumulative distributions over a
shared grid of 5000 points spanning `min(mu) - 3 max(sigma)` to
`max(mu) + 3 max(sigma)`. -/
noncomputable def pwin_trapz (p : Params ℝ) (st : Store ℝ) (runners : List Ident) :
    List (Option ℝ) :=
  let ratings := get_ratings p st runners
  let N := ratings.length
  let mus := ratings.map (fun r => r.mu)
  let sigmas := ratings.map (fun r => r.sigma)
  let start := listMin mus - 3 * listMax sigmas
  let stop := listMax mus + 3 * listMax sigmas
  let nsteps : Nat := 5000
  let us := linspace start stop nsteps
  (List.range N).map (fun i =>
    trapzO ((stop - start) / (nsteps : ℝ))
      (us.map (fun u =>
        (List.range N).foldl
          (fun acc j =>
            omul acc
              (if i = j then normPdfE (mus.getD j 0) (sigmas.getD j 0) u
               else normCdfE (mus.getD j 0) (sigmas.getD j 0) u))
          (some 1))))

theorem omul_none_left (a : Option ℝ) : omul none a = none := rfl

theorem omul_none_right (a : Option ℝ) : omul a none = none := by
  cases a <;> rfl

theorem foldl_omul_none_acc (f : Nat → Option ℝ) :
    ∀ l : List Nat, l.foldl (fun a j => omul a (f j)) none = none := by
  intro l
  induction l with
  | nil => rfl
  | cons a t ih => simpa [omul_none_left] using ih

theorem foldl_omul_eq_none (f : Nat → Option ℝ) (l : List Nat) (k : Nat)
    (hk : k ∈ l) (hf : f k = none) :
    ∀ acc, l.foldl (fun a j => omul a (f j)) acc = none := by
  induction l with
  | nil => cases hk
  | cons a t ih =>
      intro acc
      rcases List.mem_cons.mp hk with rfl | hkt
      · show List.foldl _ (omul acc (f k)) t = none
        rw [hf, omul_none_right]
        exact foldl_omul_none_acc f t
      · exact ih hkt _

theorem foldl_oadd_none : ∀ l : List (Option ℝ), l.foldl oadd none = none := by
  intro l
  induction l with
  | nil => rfl
  | cons a t ih => simpa [show oadd none a = none from rfl] using ih

theorem osum_cons_none (l : List (Option ℝ)) : osum (none :: l) = none := by
  show List.foldl oadd (oadd (some 0) none) l = none
  rw [show oadd (some 0) none = none from rfl]
  exact foldl_oadd_none l

theorem trapzO_of_all_none (dx : ℝ) :
    ∀ pl : List (Option ℝ), 2 ≤ pl.length → (∀ a ∈ pl, a = none) →
      trapzO dx pl = none := by
  intro pl h2 hall
  cases pl with
  | nil => simp at h2
  | cons a pl2 =>
      cases pl2 with
      | nil => simp at h2
      | cons b rest =>
          have ha : a = none := hall a (by simp)
          have hb : b = none := hall b (by simp)
          subst ha
          subst hb
          unfold trapzO
          simp only [List.tail_cons, List.zipWith_cons_cons]
          rw [show oadd (none : Option ℝ) none = none from rfl, osum_cons_none]
          rfl

theorem linspace_length (a b : ℝ) (n : Nat) : (linspace a b n).length = n := by
  unfold linspace
  rw [List.length_map, List.length_range]

/-- The general NaN-propagation fact behind C6: whenever some competitor's
stored standard deviation is not positive, every entry `pwin_trapz`
returns is NaN. -/
theorem pwin_trapz_all_none (p : Params ℝ) (st : Store ℝ) (runners : List Ident)
    (k : Nat) (hk : k < (get_ratings p st runners).length)
    (hsig : ¬ 0 < ((get_ratings p st runners).map (fun r => r.sigma)).getD k 0) :
    ∀ q ∈ pwin_trapz p st runners, q = none := by
  intro q hq
  unfold pwin_trapz at hq
  rcases List.mem_map.mp hq with ⟨i, hi, rfl⟩
  apply trapzO_of_all_none
  · rw [List.length_map, linspace_length]
    norm_num
  · intro a ha
    rcases List.mem_map.mp ha with ⟨u, hu, rfl⟩
    apply foldl_omul_eq_none _ _ k (List.mem_range.mpr hk)
    by_cases hik : i = k
    · rw [if_pos hik]
      unfold normPdfE
      rw [if_neg hsig]
    · rw [if_neg hik]
      unfold normCdfE
      rw [if_neg hsig]

/-- The hyperparameters used for the concrete C6 evaluation. -/
noncomputable def trapzParams : Params ℝ := ⟨0, 8, 4, 1 / 10, 1 / 10⟩

/-- A store holding two competitors whose beliefs have standard deviation 0
— the degenerate input named by C6. -/
noncomputable def trapzStore : Store ℝ :=
  [(0, ⟨[⟨0, 0⟩], 0, 0⟩), (1, ⟨[⟨1, 0⟩], 0, 0⟩)]

/-- C6 (the code at the failing input): on two competitors whose beliefs
have standard deviation 0, `pwin_trapz` neither raises nor clamps — it
silently returns a vector of NaN (here `none`) entries. -/
theorem pwin_trapz_zero_sigma_returns_nan :
    ((get_ratings trapzParams trapzStore [0, 1]).map (fun r => r.sigma) = [0, 0])
    ∧ pwin_trapz trapzParams trapzStore [0, 1] = [none, none] := by
  have hrat : get_ratings trapzParams trapzStore [0, 1] =
      [⟨0, 0⟩, ⟨1, 0⟩] := rfl
  constructor
  · rw [hrat]
    rfl
  · have hall := pwin_trapz_all_none trapzParams trapzStore [0, 1] 0
      (by rw [hrat]; norm_num)
      (by rw [hrat]; simp)
    have hlen : (pwin_trapz trapzParams trapzStore [0, 1]).length = 2 := by
      unfold pwin_trapz
      rw [List.length_map, List.length_range, hrat]
      rfl
    have := List.eq_replicate_iff.mpr ⟨hlen, hall⟩
    rw [this]
    rfl

end Quadrature

section SkillUpdate

/-- The positive mean-shift factor of the TrueSkill win/lose update:
`v(t, ε) = pdf(t - ε) / cdf(t - ε)`. -/
noncomputable def vWin (t ε : ℝ) : ℝ := gaussPdf (t - ε) / gaussCdf (t - ε)

theorem vWin_pos (t ε : ℝ) : 0 < vWin t ε :=
  div_pos (gaussPdf_pos _) (gaussCdf_pos _)

/-- Modelled from the spec: the TrueSkill `rate` call is library code not in
`src/`.  This is the standard closed form of the factor-graph update the
spec describes, instantiated to a two-competitor race with no draw: each
sigma is first inflated by the dynamics factor tau, the performance scale is
`c = sqrt(2 beta^2 + sigma_w^2 + sigma_l^2)`, and the means move by
`(sigma^2 / c) * v((mu_w - mu_l)/c, eps/c)` where `eps` is the draw margin
derived from the draw probability and beta. -/
noncomputable def twoPlayerUpdate (beta tau eps : ℝ) (w l : Rating ℝ) :
    Rating ℝ × Rating ℝ :=
  let sw2 := w.sigma ^ 2 + tau ^ 2
  let sl2 := l.sigma ^ 2 + tau ^ 2
  let c := Real.sqrt (2 * beta ^ 2 + sw2 + sl2)
  let t := (w.mu - l.mu) / c
  let v := vWin t (eps / c)
  let wgt := v * (v + t - eps / c)
  (⟨w.mu + (sw2 / c) * v, Real.sqrt (sw2 * (1 - (sw2 / c ^ 2) * wgt))⟩,
   ⟨l.mu - (sl2 / c) * v, Real.sqrt (sl2 * (1 - (sl2 / c ^ 2) * wgt))⟩)

/-- C9: in a two-competitor no-draw race, for any valid hyperparameters
(positive beta, any tau and draw margin) and positive belief standard
deviations, the rating update strictly increases the winner's mean and
strictly decreases the loser's mean. -/
theorem twoPlayerUpdate_mean_shift (beta tau eps : ℝ) (w l : Rating ℝ)
    (hb : 0 < beta) (hw : 0 < w.sigma) (hl : 0 < l.sigma) :
    w.mu < (twoPlayerUpdate beta tau eps w l).1.mu
    ∧ (twoPlayerUpdate beta tau eps w l).2.mu < l.mu := by
  have hsw2 : 0 < w.sigma ^ 2 + tau ^ 2 := by positivity
  have hsl2 : 0 < l.sigma ^ 2 + tau ^ 2 := by positivity
  have hc : 0 < Real.sqrt (2 * beta ^ 2 + (w.sigma ^ 2 + tau ^ 2) +
      (l.sigma ^ 2 + tau ^ 2)) := by
    apply Real.sqrt_pos.mpr
    positivity
  constructor
  · show w.mu < w.mu + _
    apply lt_add_of_pos_right
    exact mul_pos (div_pos hsw2 hc) (vWin_pos _ _)
  · show _ - _ < l.mu
    apply sub_lt_self
    exact mul_pos (div_pos hsl2 hc) (vWin_pos _ _)

/-- Witness for C9 at a concrete input: two equal competitors at the default
prior, default beta and tau, a small positive draw margin. -/
theorem twoPlayerUpdate_mean_shift_witness :
    (0 : ℝ) < 4 ∧ (0 : ℝ) < (⟨0, 8⟩ : Rating ℝ).sigma ∧
      ((⟨0, 8⟩ : Rating ℝ).mu <
          (twoPlayerUpdate 4 (1 / 10) (1 / 10) ⟨0, 8⟩ ⟨0, 8⟩).1.mu
        ∧ (twoPlayerUpdate 4 (1 / 10) (1 / 10) ⟨0, 8⟩ ⟨0, 8⟩).2.mu <
            (⟨0, 8⟩ : Rating ℝ).mu) :=
  ⟨by norm_num, by norm_num,
    twoPlayerUpdate_mean_shift 4 (1 / 10) (1 / 10) ⟨0, 8⟩ ⟨0, 8⟩
      (by norm_num) (by norm_num) (by norm_num)⟩

end SkillUpdate

end Harb
